import Mathlib

/-!
Verification development for the left-right / evmap repository.

The `LeftRight` namespace embeds `src/write.rs` (the `WriteHandle` of the
left-right concurrency primitive): the oplog, the `swap_index` boundary, the
`first`/`second` flags, `extend`/`append`, `publish`, `flush`,
`has_pending_operations`, the `Drop` protocol, and the epoch `wait` loop.
Machine state is modelled sequentially: the two heap copies behind the
`w_handle`/`r_handle` pointers become explicit `T` values, the `VecDeque`
oplog becomes a `List` with its front at the head, and atomic/pointer
operations become pure state transitions.  The `Aliasing` namespace embeds
`evmap/src/aliasing.rs`.
-/

namespace LeftRight

/-- Operations of the `Absorb` trait that `write.rs` calls.  `absorb_first`
takes the op by `&mut`, so it returns the (possibly mutated) op alongside the
updated copy; `absorb_second` consumes the op; `sync_with` updates the write
copy from the read copy. -/
structure AbsorbSig (T O : Type) where
  absorb_first : T → O → T → T × O
  absorb_second : T → O → T → T
  sync_with : T → T → T

/-- State of `WriteHandle` from `src/write.rs`.  The `epochs`, `last_epochs`
and test-only fields take part only in the `wait` loop, which is modelled
separately (`waitAux` below); the remaining fields are carried here. -/
structure WriteHandle (T O : Type) where
  w_handle : T
  r_handle : T
  oplog : List O
  swap_index : Nat
  first : Bool
  second : Bool
deriving Repr, DecidableEq

/-- Calls into the `Absorb` trait made by the writer, used to instrument
`extend` and `publish` with the sequence of absorb calls they perform. -/
inductive AbsorbCall (O : Type) where
  | syncWith
  | absorbSecond (op : O)
  | absorbFirst (op : O)
deriving Repr, DecidableEq

/-- Construction (`WriteHandle::new` plus the crate constructors).  The
fields `oplog = []`, `swap_index = 0`, `first = true`, `second = true` are
exactly `WriteHandle::new`.  Modelled from the spec: the crate root with
`new()` is not among the sources; per the spec the engine owns two copies of
the underlying data that start out identical, so both copies start as `t`. -/
def WriteHandle.new (t : T) : WriteHandle T O :=
  { w_handle := t, r_handle := t, oplog := [], swap_index := 0,
    first := true, second := true }

/-- Modelled from the spec: `read.rs` is not among the sources.  Per spec
§4.2 a reader guard entered on a live handle observes the map behind the
shared atomic pointer, which is the `r_handle` copy. -/
def readerView (s : WriteHandle T O) : T := s.r_handle

/-- Modelled from the spec: `enter()` on a live (not yet dropped) handle
returns a guard over the reader-visible copy. -/
def enter (s : WriteHandle T O) : Option T := some s.r_handle

/-- The `Extend::extend` impl for `WriteHandle`, instrumented with the
absorb calls it performs.  In the `first` phase each op is applied directly
to the write copy via `Absorb::absorb_second` (reading from the `r_handle`
copy through `self.enter()`); otherwise the ops are pushed onto the back of
the oplog. -/
def extendCore (A : AbsorbSig T O) (s : WriteHandle T O) (ops : List O) :
    WriteHandle T O × List (AbsorbCall O) :=
  if s.first then
    ({ s with w_handle := ops.foldl (fun w op => A.absorb_second w op s.r_handle) s.w_handle },
     ops.map AbsorbCall.absorbSecond)
  else
    ({ s with oplog := s.oplog ++ ops }, [])

/-- State transition of `Extend::extend`. -/
def extend (A : AbsorbSig T O) (s : WriteHandle T O) (ops : List O) : WriteHandle T O :=
  (extendCore A s ops).1

/-- The `append` method: `self.extend(std::iter::once(op))`. -/
def append (A : AbsorbSig T O) (s : WriteHandle T O) (op : O) : WriteHandle T O :=
  extend A s [op]

/-- The pointer swap at the end of `publish`: `r_handle.inner.swap(w_handle)`
makes the write copy visible and the old read copy becomes the write copy. -/
def swapCopies (s : WriteHandle T O) : WriteHandle T O :=
  { s with w_handle := s.r_handle, r_handle := s.w_handle }

/-- The `for op in self.oplog.iter_mut() { T::absorb_first(w_handle, op, r_handle) }`
loop: each op is passed by mutable reference, so the loop returns the updated
write copy together with the (possibly mutated) ops, which stay in the log. -/
def absorbFirstAll (A : AbsorbSig T O) (r : T) : T → List O → T × List O
  | w, [] => (w, [])
  | w, op :: ops =>
    let p := A.absorb_first w op r
    let q := absorbFirstAll A r p.1 ops
    (q.1, p.2 :: q.2)

/-- `WriteHandle::publish`, instrumented with the absorb calls it performs.
The `wait(&mut epochs)` call and the epoch snapshot at the end concern only
the epoch table and are modelled separately by `waitAux`.  If `first` is
set, replay is skipped, `first` is cleared and the copies are swapped.
Otherwise: `sync_with` if `second` is set (clearing it), then
`oplog.drain(0..swap_index)` fed to `absorb_second` (guarded by
`swap_index != 0` as in the source), then `absorb_first` by mutable
reference over the remaining ops, then `swap_index = oplog.len()`, then the
swap. -/
def publishCore (A : AbsorbSig T O) (s : WriteHandle T O) :
    WriteHandle T O × List (AbsorbCall O) :=
  if s.first then
    (swapCopies { s with first := false }, [])
  else
    let r := s.r_handle
    let sync :=
      if s.second then (A.sync_with s.w_handle r, false, [AbsorbCall.syncWith])
      else (s.w_handle, s.second, ([] : List (AbsorbCall O)))
    let drained := s.oplog.take s.swap_index
    let w1 :=
      if s.swap_index ≠ 0
      then drained.foldl (fun w op => A.absorb_second w op r) sync.1
      else sync.1
    let rest := s.oplog.drop s.swap_index
    let fr := absorbFirstAll A r w1 rest
    (swapCopies { s with w_handle := fr.1, oplog := fr.2, swap_index := fr.2.length,
                         second := sync.2.1 },
     sync.2.2 ++ drained.map AbsorbCall.absorbSecond ++ rest.map AbsorbCall.absorbFirst)

/-- State transition of `WriteHandle::publish`. -/
def publish (A : AbsorbSig T O) (s : WriteHandle T O) : WriteHandle T O :=
  (publishCore A s).1

/-- The `has_pending_operations` method: `self.swap_index < self.oplog.len()`. -/
def hasPendingOperations (s : WriteHandle T O) : Bool :=
  decide (s.swap_index < s.oplog.length)

/-- The `flush` method: publish iff `has_pending_operations()`; the boolean
records whether a publish was performed. -/
def flushPair (A : AbsorbSig T O) (s : WriteHandle T O) : WriteHandle T O × Bool :=
  if hasPendingOperations s then (publish A s, true) else (s, false)

/-- State transition of `WriteHandle::flush`. -/
def flush (A : AbsorbSig T O) (s : WriteHandle T O) : WriteHandle T O :=
  (flushPair A s).1

/-- A writer-side event: a batch of appended ops or a publish. -/
inductive TraceOp (O : Type) where
  | append (ops : List O)
  | publish
deriving Repr, DecidableEq

/-- Ops carried by one trace event. -/
def TraceOp.ops : TraceOp O → List O
  | .append ops => ops
  | .publish => []

/-- One writer-side step. -/
def stepTrace (A : AbsorbSig T O) (s : WriteHandle T O) : TraceOp O → WriteHandle T O
  | .append ops => extend A s ops
  | .publish => publish A s

/-- Run a sequence of writer-side events from a given state. -/
def runTrace (A : AbsorbSig T O) (s : WriteHandle T O) : List (TraceOp O) → WriteHandle T O
  | [] => s
  | e :: tr => runTrace A (stepTrace A s e) tr

/-- All ops appended over a trace, in append order. -/
def allOps : List (TraceOp O) → List O
  | [] => []
  | e :: tr => e.ops ++ allOps tr

/-- Number of publishes in a trace. -/
def publishCount : List (TraceOp O) → Nat
  | [] => 0
  | .append _ :: tr => publishCount tr
  | .publish :: tr => publishCount tr + 1

/-- Ghost accumulator: given the number `total` of ops appended so far and
the number `n` of ops already made visible to readers, return the final
(visible, total) counts after a trace; a publish makes everything appended
so far visible. -/
def visAfter : Nat → Nat → List (TraceOp O) → Nat × Nat
  | total, n, [] => (n, total)
  | total, n, .append ops :: tr => visAfter (total + ops.length) n tr
  | total, _n, .publish :: tr => visAfter total total tr

/-- Number of ops made visible to readers by the publishes of a trace. -/
def visibleOps (tr : List (TraceOp O)) : Nat := (visAfter 0 0 tr).1

/-- Total number of ops appended over a trace. -/
def totalOps (tr : List (TraceOp O)) : Nat := (visAfter 0 0 tr).2

/-- A concrete `Absorb` implementation used to evaluate the theorems on
concrete inputs, in the spirit of the `CounterAddOp` helper the crate's
tests use: the data is an integer and each op adds to it. -/
def counterA : AbsorbSig Int Int where
  absorb_first := fun w op _ => (w + op, op)
  absorb_second := fun w op _ => w + op
  sync_with := fun _ r => r

/-- Abstract semantics of a counter op. -/
def counterApply : Int → Int → Int := fun w op => w + op

/-- The op `mutated` is a possible result of passing `orig` by mutable
reference to `absorb_first`. -/
def IsMutationOf (A : AbsorbSig T O) (orig mutated : O) : Prop :=
  ∃ w r, (A.absorb_first w orig r).2 = mutated

/-- Pointwise `IsMutationOf` between a list of original ops and the list of
ops left in the oplog after `absorb_first` passes. -/
def Muts (A : AbsorbSig T O) : List O → List O → Prop
  | [], [] => True
  | o :: os, m :: ms => IsMutationOf A o m ∧ Muts A os ms
  | _, _ => False

/-- The `Absorb` contract linking the three absorb operations to one
abstract semantics `ap`: `absorb_first` and `absorb_second` apply the same
logical change (also when `absorb_second` consumes an op previously mutated
by `absorb_first`), and `sync_with` initializes the write copy from the read
copy. -/
structure Coherent (A : AbsorbSig T O) (ap : T → O → T) : Prop where
  first_applies : ∀ w op r, (A.absorb_first w op r).1 = ap w op
  second_applies : ∀ w op r, A.absorb_second w op r = ap w op
  second_mutated : ∀ orig mutated, IsMutationOf A orig mutated →
      ∀ w r, A.absorb_second w mutated r = ap w orig
  sync_copies : ∀ w r, A.sync_with w r = r

/-- Semantic effect of a list of ops applied in order. -/
def applyAll (ap : T → O → T) (t : T) (l : List O) : T := l.foldl ap t

/-- Reachable writer states.  `H` is the full history of appended ops, `k`
the number of publishes performed, `n` the number of ops made visible to
readers. -/
inductive Reachable (A : AbsorbSig T O) (t : T) :
    WriteHandle T O → List O → Nat → Nat → Prop
  | init : Reachable A t (WriteHandle.new t) [] 0 0
  | extend {s H k n} (ops : List O) :
      Reachable A t s H k n → Reachable A t (extend A s ops) (H ++ ops) k n
  | publish {s H k n} :
      Reachable A t s H k n → Reachable A t (publish A s) H (k + 1) H.length

/-- Structural invariant of reachable writer states, provable with no
assumption on the `Absorb` implementation: the flags record the publish
count, in the first phase the oplog is empty and readers still see the
initial data, and afterwards the log splits at `swap_index` into the
(possibly mutated) ops `[n - swap_index .. n)` of the history — already
applied to the read copy — followed by the unapplied ops `[n ..)`. -/
def StructInv (A : AbsorbSig T O) (t : T) (s : WriteHandle T O)
    (H : List O) (k n : Nat) : Prop :=
  (s.first = true ↔ k = 0) ∧
  (s.second = true ↔ k ≤ 1) ∧
  n ≤ H.length ∧
  s.swap_index ≤ n ∧
  (k ≤ 1 → s.swap_index = 0) ∧
  (k = 0 → s.oplog = [] ∧ n = 0 ∧ s.r_handle = t) ∧
  (0 < k → s.oplog.drop s.swap_index = H.drop n ∧
    Muts A ((H.take n).drop (n - s.swap_index)) (s.oplog.take s.swap_index))

/-- Semantic invariant of reachable writer states under a `Coherent`
absorb implementation: readers see the semantic effect of the first `n`
appended ops; the write copy holds all ops while in the first phase, the
untouched initial data while `second` is pending, and the semantic effect of
the first `n - swap_index` ops afterwards. -/
def SemInv (ap : T → O → T) (t : T) (s : WriteHandle T O)
    (H : List O) (k n : Nat) : Prop :=
  s.r_handle = applyAll ap t (H.take n) ∧
  (k = 0 → s.w_handle = applyAll ap t H) ∧
  (k = 1 → s.w_handle = t) ∧
  (2 ≤ k → s.w_handle = applyAll ap t (H.take (n - s.swap_index)))

/-- Test whether an absorb call is the `sync_with` call. -/
def AbsorbCall.isSyncWith : AbsorbCall O → Bool
  | .syncWith => true
  | _ => false

/-- Steps performed by the `Drop` impl of `WriteHandle`, in order. -/
inductive DropStep (T : Type) where
  | publishStep
  | swapToNull
  | waitForReaders
  | fence
  | callDropFirst (w : T)
  | callDropSecond (r : T)
deriving Repr, DecidableEq

/-- The two conditional publishes at the start of `Drop for WriteHandle`:
`if !self.oplog.is_empty() { self.publish(); }`, twice. -/
def dropFlush (A : AbsorbSig T O) (s : WriteHandle T O) : WriteHandle T O :=
  let s1 := if s.oplog.isEmpty then s else publish A s
  if s1.oplog.isEmpty then s1 else publish A s1

/-- The `Drop` impl for `WriteHandle`: publish (at most twice) while the
oplog is non-empty, `assert!(self.oplog.is_empty())` (modelled as `none` on
failure), swap the reader-visible pointer to null, wait for all readers to
depart, fence, then hand the write copy to `Absorb::drop_first` and the old
read copy to `Absorb::drop_second`. -/
def dropWriteHandle (A : AbsorbSig T O) (s : WriteHandle T O) :
    Option (List (DropStep T)) :=
  let s1 := if s.oplog.isEmpty then s else publish A s
  let s2 := if s1.oplog.isEmpty then s1 else publish A s1
  if s2.oplog.isEmpty then
    some ((if s.oplog.isEmpty then [] else [DropStep.publishStep])
      ++ (if s1.oplog.isEmpty then [] else [DropStep.publishStep])
      ++ [DropStep.swapToNull, DropStep.waitForReaders, DropStep.fence,
          DropStep.callDropFirst s2.w_handle, DropStep.callDropSecond s2.r_handle])
  else none

/-- One reader-slot check of the `wait` loop: slot `i` blocks the writer iff
its epoch recorded in `last_epochs` is odd and the freshly loaded epoch is
unchanged.  Epoch tables are modelled as lists indexed by slot; the slab is
assumed fully occupied so the enumeration index equals the slot key. -/
def failsAt (last cur : List Nat) (i : Nat) : Bool :=
  decide (last.getD i 0 % 2 = 1) && decide (cur.getD i 0 = last.getD i 0)

/-- The `for` loop of `wait` starting at index `i` with `rem` slots left:
index of the first blocking slot, if any. -/
def firstFailFrom (last cur : List Nat) : Nat → Nat → Option Nat
  | _i, 0 => none
  | i, rem + 1 =>
    if failsAt last cur i then some i else firstFailFrom last cur (i + 1) rem

/-- One scan of the `wait` loop starting from `starti` (the
`epochs.iter().enumerate().skip(starti)` iteration). -/
def firstFail (last cur : List Nat) (starti : Nat) : Option Nat :=
  firstFailFrom last cur starti (last.length - starti)

/-- The `'retry` loop of `wait`.  `cur k` gives the epochs as loaded during
the k-th scan; `fuel` bounds the number of scans so the spin is total;
`starti` and `iter` are the loop-local variables of the source.  Returns
whether the loop finished within `fuel` scans together with the number of
`thread::yield_now()` calls performed: a failed scan increments `iter` until
it reaches 20, after which every further retry yields. -/
def waitAux (last : List Nat) (cur : Nat → List Nat) :
    Nat → Nat → Nat → Nat → Option Unit × Nat
  | 0, _, _, _ => (none, 0)
  | fuel + 1, k, starti, iter =>
    match firstFail last (cur k) starti with
    | none => (some (), 0)
    | some ii =>
      let y := if iter ≠ 20 then 0 else 1
      let it1 := if iter ≠ 20 then iter + 1 else iter
      let r := waitAux last cur fuel (k + 1) ii it1
      (r.1, y + r.2)

/-- The reader-slot condition under which `wait` may stop caring about slot
`i`: the recorded epoch is even (reader idle at snapshot time) or the
current epoch differs from the recorded one (reader moved since the swap). -/
def passOk (last cur : List Nat) (i : Nat) : Prop :=
  last.getD i 0 % 2 = 0 ∨ cur.getD i 0 ≠ last.getD i 0

/-- Epochs are monotone: each recorded `last_epochs` value is an earlier
read of the same nondecreasing counter, and the counters never decrease
between scans. -/
def EpochsMonotone (last : List Nat) (cur : Nat → List Nat) : Prop :=
  ∀ k i, last.getD i 0 ≤ (cur k).getD i 0 ∧ (cur k).getD i 0 ≤ (cur (k + 1)).getD i 0

theorem Muts.length_eq {A : AbsorbSig T O} :
    ∀ {os ms : List O}, Muts A os ms → os.length = ms.length
  | [], [], _ => rfl
  | _ :: os, _ :: ms, h => by
    simpa using Muts.length_eq h.2

theorem absorbFirstAll_snd_length (A : AbsorbSig T O) (r : T) :
    ∀ (w : T) (l : List O), (absorbFirstAll A r w l).2.length = l.length := by
  intro w l
  induction l generalizing w with
  | nil => rfl
  | cons op ops ih => simp [absorbFirstAll, ih]

theorem absorbFirstAll_muts (A : AbsorbSig T O) (r : T) :
    ∀ (w : T) (l : List O), Muts A l (absorbFirstAll A r w l).2 := by
  intro w l
  induction l generalizing w with
  | nil => exact trivial
  | cons op ops ih =>
    refine ⟨⟨w, r, rfl⟩, ?_⟩
    exact ih _

theorem absorbFirstAll_fst {A : AbsorbSig T O} {ap : T → O → T}
    (hc : Coherent A ap) (r : T) :
    ∀ (w : T) (l : List O), (absorbFirstAll A r w l).1 = applyAll ap w l := by
  intro w l
  induction l generalizing w with
  | nil => rfl
  | cons op ops ih =>
    simp only [absorbFirstAll, applyAll, List.foldl_cons]
    rw [hc.first_applies]
    exact ih _

theorem foldl_absorb_second_muts {A : AbsorbSig T O} {ap : T → O → T}
    (hc : Coherent A ap) (r : T) :
    ∀ {os ms : List O}, Muts A os ms → ∀ w : T,
      ms.foldl (fun w op => A.absorb_second w op r) w = applyAll ap w os := by
  intro os
  induction os with
  | nil =>
    intro ms h w
    cases ms with
    | nil => rfl
    | cons m ms => exact absurd h (by simp [Muts])
  | cons o os ih =>
    intro ms h w
    cases ms with
    | nil => exact absurd h (by simp [Muts])
    | cons m ms =>
      obtain ⟨hm, hrest⟩ := h
      simp only [List.foldl_cons, applyAll]
      rw [hc.second_mutated o m hm, ← applyAll]
      exact ih hrest _

theorem foldl_absorb_second_applies {A : AbsorbSig T O} {ap : T → O → T}
    (hc : Coherent A ap) (r : T) (l : List O) (w : T) :
    l.foldl (fun w op => A.absorb_second w op r) w = applyAll ap w l := by
  induction l generalizing w with
  | nil => rfl
  | cons op ops ih =>
    simp only [List.foldl_cons, applyAll]
    rw [hc.second_applies, ← applyAll]
    exact ih _

theorem extend_first (A : AbsorbSig T O) {s : WriteHandle T O} (h : s.first = true)
    (ops : List O) :
    extend A s ops =
      { s with w_handle := ops.foldl (fun w op => A.absorb_second w op s.r_handle) s.w_handle } := by
  simp [extend, extendCore, h]

theorem extend_not_first (A : AbsorbSig T O) {s : WriteHandle T O} (h : s.first = false)
    (ops : List O) :
    extend A s ops = { s with oplog := s.oplog ++ ops } := by
  simp [extend, extendCore, h]

theorem publish_first (A : AbsorbSig T O) {s : WriteHandle T O} (h : s.first = true) :
    publish A s = swapCopies { s with first := false } := by
  simp [publish, publishCore, h]

theorem ite_drain_eq (A : AbsorbSig T O) (r w : T) (l : List O) (si : Nat) :
    (if si = 0 then w else (l.take si).foldl (fun w op => A.absorb_second w op r) w)
      = (l.take si).foldl (fun w op => A.absorb_second w op r) w := by
  cases si with
  | zero => simp
  | succ m => simp

/-- Normal form of `publish` once the first publish has happened: sync the
write copy if `second` is set, fold `absorb_second` over the drained prefix,
run `absorb_first` over the rest (which stays in the log, possibly mutated),
set `swap_index` to the new log length, clear `second`, and swap. -/
theorem publish_not_first (A : AbsorbSig T O) {s : WriteHandle T O} (h : s.first = false) :
    publish A s =
      swapCopies
        { s with
          w_handle :=
            (absorbFirstAll A s.r_handle
              ((s.oplog.take s.swap_index).foldl
                (fun w op => A.absorb_second w op s.r_handle)
                (if s.second then A.sync_with s.w_handle s.r_handle else s.w_handle))
              (s.oplog.drop s.swap_index)).1,
          oplog :=
            (absorbFirstAll A s.r_handle
              ((s.oplog.take s.swap_index).foldl
                (fun w op => A.absorb_second w op s.r_handle)
                (if s.second then A.sync_with s.w_handle s.r_handle else s.w_handle))
              (s.oplog.drop s.swap_index)).2,
          swap_index :=
            (absorbFirstAll A s.r_handle
              ((s.oplog.take s.swap_index).foldl
                (fun w op => A.absorb_second w op s.r_handle)
                (if s.second then A.sync_with s.w_handle s.r_handle else s.w_handle))
              (s.oplog.drop s.swap_index)).2.length,
          second := false } := by
  cases hsec : s.second <;>
    simp [publish, publishCore, h, hsec, ite_drain_eq]

/-- The absorb calls performed by a non-first `publish`. -/
theorem publishCore_snd_not_first (A : AbsorbSig T O) {s : WriteHandle T O}
    (h : s.first = false) :
    (publishCore A s).2 =
      (if s.second then [AbsorbCall.syncWith] else [])
        ++ (s.oplog.take s.swap_index).map AbsorbCall.absorbSecond
        ++ (s.oplog.drop s.swap_index).map AbsorbCall.absorbFirst := by
  cases hsec : s.second <;> simp [publishCore, h, hsec]

theorem StructInv.swap_le_oplog {A : AbsorbSig T O} {t : T} {s : WriteHandle T O}
    {H : List O} {k n : Nat} (hs : StructInv A t s H k n) :
    s.swap_index ≤ s.oplog.length := by
  rcases Nat.eq_zero_or_pos k with hk | hk
  · simp [(hs.2.2.2.2.1 (by omega))]
  · have hmuts := (hs.2.2.2.2.2.2 hk).2
    have hlen := hmuts.length_eq
    have h1 : ((H.take n).drop (n - s.swap_index)).length = s.swap_index := by
      simp only [List.length_drop, List.length_take]
      have h3 : n ≤ H.length := hs.2.2.1
      have h4 : s.swap_index ≤ n := hs.2.2.2.1
      omega
    have h2 : (s.oplog.take s.swap_index).length = min s.swap_index s.oplog.length := by
      simp
    omega

theorem structInv_init (A : AbsorbSig T O) (t : T) :
    StructInv A t (WriteHandle.new t) ([] : List O) 0 0 := by
  refine ⟨by simp [WriteHandle.new], by simp [WriteHandle.new], le_refl _, le_refl _,
    ?_, ?_, ?_⟩
  · intro; rfl
  · intro; exact ⟨rfl, rfl, rfl⟩
  · intro h; omega

theorem structInv_extend {A : AbsorbSig T O} {t : T} {s : WriteHandle T O}
    {H : List O} {k n : Nat} (hs : StructInv A t s H k n) (ops : List O) :
    StructInv A t (extend A s ops) (H ++ ops) k n := by
  obtain ⟨hf, hsec, hnH, hswn, hsw01, h0, hpos⟩ := hs
  rcases Nat.eq_zero_or_pos k with hk | hk
  · subst hk
    have hft : s.first = true := hf.mpr rfl
    obtain ⟨hop, hn0, hr⟩ := h0 rfl
    rw [extend_first A hft]
    exact ⟨by simpa using hf, by simpa using hsec, by simp [hn0],
      by simpa using hswn, fun _ => hsw01 (by omega),
      fun _ => ⟨hop, hn0, hr⟩, fun h => by omega⟩
  · have hff : s.first = false := by
      rcases Bool.eq_false_or_eq_true s.first with h | h
      · exact absurd (hf.mp h) (by omega)
      · exact h
    rw [extend_not_first A hff]
    obtain ⟨hdrop, hmuts⟩ := hpos hk
    have hswlen : s.swap_index ≤ s.oplog.length :=
      StructInv.swap_le_oplog ⟨hf, hsec, hnH, hswn, hsw01, h0, fun _ => ⟨hdrop, hmuts⟩⟩
    refine ⟨by simpa using hf, by simpa using hsec, by simp; omega, hswn,
      hsw01, fun h => by omega, fun _ => ⟨?_, ?_⟩⟩
    · rw [List.drop_append_of_le_length hswlen, List.drop_append_of_le_length hnH, hdrop]
    · rwa [List.take_append_of_le_length hswlen, List.take_append_of_le_length hnH]

theorem structInv_publish {A : AbsorbSig T O} {t : T} {s : WriteHandle T O}
    {H : List O} {k n : Nat} (hs : StructInv A t s H k n) :
    StructInv A t (publish A s) H (k + 1) H.length := by
  obtain ⟨hf, hsec, hnH, hswn, hsw01, h0, hpos⟩ := hs
  rcases Nat.eq_zero_or_pos k with hk | hk
  · subst hk
    have hft : s.first = true := hf.mpr rfl
    obtain ⟨hop, hn0, hr⟩ := h0 rfl
    have hsw0 : s.swap_index = 0 := hsw01 (by omega)
    rw [publish_first A hft]
    refine ⟨by simp [swapCopies], by simp [swapCopies, hsec.mpr (by omega)],
      le_refl _, by simp [swapCopies, hsw0], fun _ => by simp [swapCopies, hsw0],
      fun h => by omega, fun _ => ?_⟩
    constructor
    · simp [swapCopies, hsw0, hop, List.drop_length]
    · simp [swapCopies, hsw0, hop, List.take_length, List.drop_length, Muts]
  · have hff : s.first = false := by
      rcases Bool.eq_false_or_eq_true s.first with h | h
      · exact absurd (hf.mp h) (by omega)
      · exact h
    obtain ⟨hdrop, hmuts⟩ := hpos hk
    rw [publish_not_first A hff]
    set w1 := (s.oplog.take s.swap_index).foldl
      (fun w op => A.absorb_second w op s.r_handle)
      (if s.second then A.sync_with s.w_handle s.r_handle else s.w_handle) with hw1
    set fr := absorbFirstAll A s.r_handle w1 (s.oplog.drop s.swap_index) with hfr
    have hfrlen : fr.2.length = (s.oplog.drop s.swap_index).length :=
      absorbFirstAll_snd_length A s.r_handle w1 (s.oplog.drop s.swap_index)
    have hrest : (s.oplog.drop s.swap_index).length = H.length - n := by
      rw [hdrop]; simp
    refine ⟨by simp [swapCopies, hff], by simp [swapCopies]; omega, le_refl _,
      by simp [swapCopies]; omega, fun h => by omega, fun h => by omega,
      fun _ => ⟨?_, ?_⟩⟩
    · simp [swapCopies, List.drop_length, hfrlen]
    · have htake : fr.2.take fr.2.length = fr.2 := by
        simp
      have hdroplen : H.length - fr.2.length = n := by
        rw [hfrlen, hrest]; omega
      simp only [swapCopies, htake, List.take_length, hdroplen]
      rw [← hdrop]
      exact absorbFirstAll_muts A s.r_handle w1 (s.oplog.drop s.swap_index)

theorem reachable_struct {A : AbsorbSig T O} {t : T} {s : WriteHandle T O}
    {H : List O} {k n : Nat} (hr : Reachable A t s H k n) :
    StructInv A t s H k n := by
  induction hr with
  | init => exact structInv_init A t
  | extend ops _ ih => exact structInv_extend ih ops
  | publish _ ih => exact structInv_publish ih

theorem applyAll_append (ap : T → O → T) (t : T) (l1 l2 : List O) :
    applyAll ap t (l1 ++ l2) = applyAll ap (applyAll ap t l1) l2 := by
  simp [applyAll]

theorem applyAll_take_split (ap : T → O → T) (t : T) (H : List O) {m n : Nat}
    (h : m ≤ n) :
    applyAll ap (applyAll ap t (H.take m)) ((H.take n).drop m) = applyAll ap t (H.take n) := by
  rw [← applyAll_append]
  congr 1
  have hsplit := List.take_append_drop m (H.take n)
  rwa [List.take_take, Nat.min_eq_left h] at hsplit

theorem semInv_init (ap : T → O → T) (t : T) :
    SemInv ap t (WriteHandle.new t) ([] : List O) 0 0 := by
  refine ⟨by simp [WriteHandle.new, applyAll], fun _ => by simp [WriteHandle.new, applyAll],
    fun h => by omega, fun h => by omega⟩

theorem semInv_extend {A : AbsorbSig T O} {ap : T → O → T} (hc : Coherent A ap) {t : T}
    {s : WriteHandle T O} {H : List O} {k n : Nat}
    (hst : StructInv A t s H k n) (hse : SemInv ap t s H k n) (ops : List O) :
    SemInv ap t (extend A s ops) (H ++ ops) k n := by
  obtain ⟨hf, hsec, hnH, hswn, hsw01, h0, hpos⟩ := hst
  obtain ⟨hr, hw0, hw1, hw2⟩ := hse
  rcases Nat.eq_zero_or_pos k with hk | hk
  · subst hk
    have hft : s.first = true := hf.mpr rfl
    obtain ⟨hop, hn0, hrt⟩ := h0 rfl
    rw [extend_first A hft]
    refine ⟨?_, fun _ => ?_, fun h => by omega, fun h => by omega⟩
    · simp only [hn0, List.take_zero]
      exact hr.trans (by simp [hn0, applyAll])
    · simp only
      rw [foldl_absorb_second_applies hc, hw0 rfl, ← applyAll_append]
  · have hff : s.first = false := by
      rcases Bool.eq_false_or_eq_true s.first with h | h
      · exact absurd (hf.mp h) (by omega)
      · exact h
    rw [extend_not_first A hff]
    refine ⟨?_, fun h => by omega, hw1, fun h2 => ?_⟩
    · rw [List.take_append_of_le_length hnH]
      exact hr
    · rw [List.take_append_of_le_length (by omega : n - s.swap_index ≤ H.length)]
      exact hw2 h2

theorem semInv_publish {A : AbsorbSig T O} {ap : T → O → T} (hc : Coherent A ap) {t : T}
    {s : WriteHandle T O} {H : List O} {k n : Nat}
    (hst : StructInv A t s H k n) (hse : SemInv ap t s H k n) :
    SemInv ap t (publish A s) H (k + 1) H.length := by
  obtain ⟨hf, hsec, hnH, hswn, hsw01, h0, hpos⟩ := hst
  obtain ⟨hr, hw0, hw1, hw2⟩ := hse
  rcases Nat.eq_zero_or_pos k with hk | hk
  · subst hk
    have hft : s.first = true := hf.mpr rfl
    obtain ⟨hop, hn0, hrt⟩ := h0 rfl
    rw [publish_first A hft]
    refine ⟨?_, fun h => by omega, fun _ => ?_, fun h => by omega⟩
    · simp only [swapCopies, List.take_length]
      exact hw0 rfl
    · simpa [swapCopies] using hrt
  · have hff : s.first = false := by
      rcases Bool.eq_false_or_eq_true s.first with h | h
      · exact absurd (hf.mp h) (by omega)
      · exact h
    obtain ⟨hdrop, hmuts⟩ := hpos hk
    rw [publish_not_first A hff]
    set w0 := (if s.second then A.sync_with s.w_handle s.r_handle else s.w_handle) with hw0def
    have hw0val : w0 = applyAll ap t (H.take (n - s.swap_index)) := by
      rcases Nat.lt_or_ge k 2 with hk2 | hk2
    -- exactly one prior publish: the second flag is still set and the write
    -- copy is initialized from the read copy by sync_with
      · have hsect : s.second = true := hsec.mpr (by omega)
        have hsw0 : s.swap_index = 0 := hsw01 (by omega)
        rw [hw0def, if_pos hsect, hc.sync_copies, hr, hsw0, Nat.sub_zero]
      · have hsecf : s.second = false := by
          rcases Bool.eq_false_or_eq_true s.second with h | h
          · exact absurd (hsec.mp h) (by omega)
          · exact h
        rw [hw0def, if_neg (by simp [hsecf]), hw2 hk2]
    set w1 := (s.oplog.take s.swap_index).foldl
      (fun w op => A.absorb_second w op s.r_handle) w0 with hw1def
    have hw1val : w1 = applyAll ap t (H.take n) := by
      rw [hw1def, foldl_absorb_second_muts hc s.r_handle hmuts, hw0val,
        applyAll_take_split ap t H (by omega : n - s.swap_index ≤ n)]
    set fr := absorbFirstAll A s.r_handle w1 (s.oplog.drop s.swap_index) with hfrdef
    have hfr1 : fr.1 = applyAll ap t H := by
      rw [hfrdef, absorbFirstAll_fst hc, hw1val, hdrop, ← applyAll_append,
        List.take_append_drop]
    have hfrlen : fr.2.length = H.length - n := by
      rw [hfrdef, absorbFirstAll_snd_length, hdrop, List.length_drop]
    refine ⟨?_, fun h => by omega, fun h => by omega, fun _ => ?_⟩
    · simp only [swapCopies, List.take_length]
      exact hfr1
    · simp only [swapCopies]
      rw [hfrlen, (by omega : H.length - (H.length - n) = n)]
      exact hr

theorem reachable_sem {A : AbsorbSig T O} {ap : T → O → T} (hc : Coherent A ap) {t : T}
    {s : WriteHandle T O} {H : List O} {k n : Nat} (hr : Reachable A t s H k n) :
    SemInv ap t s H k n := by
  induction hr with
  | init => exact semInv_init ap t
  | extend ops h ih => exact semInv_extend hc (reachable_struct h) ih ops
  | publish h ih => exact semInv_publish hc (reachable_struct h) ih

theorem runTrace_append_one (A : AbsorbSig T O) :
    ∀ (tr : List (TraceOp O)) (s : WriteHandle T O) (e : TraceOp O),
      runTrace A s (tr ++ [e]) = stepTrace A (runTrace A s tr) e := by
  intro tr
  induction tr with
  | nil => intro s e; rfl
  | cons e0 tr ih => intro s e; simpa [runTrace] using ih (stepTrace A s e0) e

theorem visAfter_snd (tr : List (TraceOp O)) :
    ∀ total n : Nat, (visAfter total n tr).2 = total + (allOps tr).length := by
  induction tr with
  | nil => intro total n; simp [visAfter, allOps]
  | cons e tr ih =>
    intro total n
    cases e with
    | append ops => simp [visAfter, allOps, TraceOp.ops, ih]; omega
    | publish => simp [visAfter, allOps, TraceOp.ops, ih]

theorem totalOps_eq (tr : List (TraceOp O)) : totalOps tr = (allOps tr).length := by
  simpa [totalOps] using visAfter_snd tr 0 0

theorem runTrace_reachable_from {A : AbsorbSig T O} {t : T} :
    ∀ (tr : List (TraceOp O)) {s : WriteHandle T O} {H : List O} {k n : Nat},
      Reachable A t s H k n →
      Reachable A t (runTrace A s tr) (H ++ allOps tr) (k + publishCount tr)
        (visAfter H.length n tr).1 := by
  intro tr
  induction tr with
  | nil =>
    intro s H k n hr
    simpa [runTrace, allOps, publishCount, visAfter] using hr
  | cons e tr ih =>
    intro s H k n hr
    cases e with
    | append ops =>
      have h := ih (hr.extend ops)
      simpa [runTrace, stepTrace, allOps, TraceOp.ops, publishCount, visAfter] using h
    | publish =>
      have h := ih hr.publish
      have hk : k + 1 + publishCount tr = k + (publishCount tr + 1) := by omega
      rw [hk] at h
      simpa [runTrace, stepTrace, allOps, TraceOp.ops, publishCount, visAfter] using h

theorem runTrace_reachable (A : AbsorbSig T O) (t : T) (tr : List (TraceOp O)) :
    Reachable A t (runTrace A (WriteHandle.new t) tr)
      (allOps tr) (publishCount tr) (visibleOps tr) := by
  have h := runTrace_reachable_from tr (@Reachable.init T O A t)
  simpa [visibleOps] using h

theorem failsAt_false_iff (last cur : List Nat) (i : Nat) :
    failsAt last cur i = false ↔ passOk last cur i := by
  simp [failsAt, passOk]
  omega

theorem firstFailFrom_none (last cur : List Nat) :
    ∀ (rem i : Nat), firstFailFrom last cur i rem = none →
      ∀ j, i ≤ j → j < i + rem → failsAt last cur j = false := by
  intro rem
  induction rem with
  | zero => intro i _ j h1 h2; omega
  | succ rem ih =>
    intro i h j h1 h2
    rw [firstFailFrom] at h
    by_cases hf : failsAt last cur i = true
    · simp [hf] at h
    · have hf' : failsAt last cur i = false := by simpa using hf
      simp only [hf', if_false, Bool.false_eq_true] at h
      rcases Nat.eq_or_lt_of_le h1 with heq | hlt
      · exact heq ▸ hf'
      · exact ih (i + 1) h j (by omega) (by omega)

theorem firstFailFrom_some (last cur : List Nat) :
    ∀ (rem i ii : Nat), firstFailFrom last cur i rem = some ii →
      i ≤ ii ∧ ii < i + rem ∧ failsAt last cur ii = true ∧
        ∀ j, i ≤ j → j < ii → failsAt last cur j = false := by
  intro rem
  induction rem with
  | zero => intro i ii h; simp [firstFailFrom] at h
  | succ rem ih =>
    intro i ii h
    rw [firstFailFrom] at h
    by_cases hf : failsAt last cur i = true
    · simp only [hf, if_true, Option.some.injEq] at h
      subst h
      exact ⟨le_refl _, by omega, hf, fun j h1 h2 => by omega⟩
    · have hf' : failsAt last cur i = false := by simpa using hf
      simp only [hf', if_false, Bool.false_eq_true] at h
      obtain ⟨h1, h2, h3, h4⟩ := ih (i + 1) ii h
      refine ⟨by omega, by omega, h3, fun j hj1 hj2 => ?_⟩
      rcases Nat.eq_or_lt_of_le hj1 with heq | hlt
      · exact heq ▸ hf'
      · exact h4 j (by omega) hj2

theorem firstFail_none (last cur : List Nat) (starti : Nat)
    (h : firstFail last cur starti = none) :
    ∀ j, starti ≤ j → j < last.length → failsAt last cur j = false :=
  fun j h1 h2 => firstFailFrom_none last cur _ _ h j h1 (by omega)

theorem firstFail_some (last cur : List Nat) (starti ii : Nat)
    (h : firstFail last cur starti = some ii) :
    starti ≤ ii ∧ failsAt last cur ii = true ∧
      ∀ j, starti ≤ j → j < ii → failsAt last cur j = false := by
  obtain ⟨h1, _h2, h3, h4⟩ := firstFailFrom_some last cur _ _ _ h
  exact ⟨h1, h3, h4⟩

theorem passOk_mono {last : List Nat} {cur : Nat → List Nat}
    (hm : EpochsMonotone last cur) {k i : Nat}
    (h : passOk last (cur k) i) : passOk last (cur (k + 1)) i := by
  rcases h with h | h
  · exact Or.inl h
  · right
    have h1 := (hm k i).1
    have h2 := (hm k i).2
    omega

theorem waitAux_some_pass {last : List Nat} {cur : Nat → List Nat}
    (hm : EpochsMonotone last cur) :
    ∀ (fuel k starti iter : Nat),
      (∀ i, i < starti → passOk last (cur k) i) →
      (waitAux last cur fuel k starti iter).1 = some () →
      ∃ kf, k ≤ kf ∧ ∀ i, i < last.length → passOk last (cur kf) i := by
  intro fuel
  induction fuel with
  | zero => intro k starti iter _ h; simp [waitAux] at h
  | succ fuel ih =>
    intro k starti iter hpre h
    cases hff : firstFail last (cur k) starti with
    | none =>
      refine ⟨k, le_refl _, fun i hi => ?_⟩
      by_cases hlt : i < starti
      · exact hpre i hlt
      · exact (failsAt_false_iff _ _ _).mp (firstFail_none _ _ _ hff i (by omega) hi)
    | some ii =>
      simp only [waitAux, hff] at h
      obtain ⟨h1, h2, h3⟩ := firstFail_some _ _ _ _ hff
      have hpre' : ∀ i, i < ii → passOk last (cur (k + 1)) i := by
        intro i hi
        by_cases hlt : i < starti
        · exact passOk_mono hm (hpre i hlt)
        · exact passOk_mono hm ((failsAt_false_iff _ _ _).mp (h3 i (by omega) hi))
      obtain ⟨kf, hkf, hall⟩ := ih (k + 1) ii _ hpre' h
      exact ⟨kf, by omega, hall⟩

theorem waitAux_blocked_none {last : List Nat} {cur : Nat → List Nat} :
    ∀ (fuel k starti iter f : Nat), starti ≤ f → f < last.length →
      (∀ k', failsAt last (cur k') f = true) →
      (waitAux last cur fuel k starti iter).1 = none := by
  intro fuel
  induction fuel with
  | zero => intro k starti iter f _ _ _; simp [waitAux]
  | succ fuel ih =>
    intro k starti iter f hsf hfn hall
    cases hff : firstFail last (cur k) starti with
    | none =>
      exact absurd (hall k) (by simp [firstFail_none _ _ _ hff f hsf hfn])
    | some ii =>
      simp only [waitAux, hff]
      obtain ⟨h1, h2, h3⟩ := firstFail_some _ _ _ _ hff
      have hii : ii ≤ f := by
        by_contra hgt
        exact absurd (hall k) (by simp [h3 f hsf (by omega)])
      exact ih (k + 1) ii _ f hii hfn hall

theorem waitAux_blocked_yields {last : List Nat} {cur : Nat → List Nat} :
    ∀ (fuel k starti iter f : Nat), iter ≤ 20 → starti ≤ f → f < last.length →
      (∀ k', failsAt last (cur k') f = true) →
      (waitAux last cur fuel k starti iter).2 = fuel - (20 - iter) := by
  intro fuel
  induction fuel with
  | zero => intro k starti iter f _ _ _ _; simp [waitAux]
  | succ fuel ih =>
    intro k starti iter f hit hsf hfn hall
    cases hff : firstFail last (cur k) starti with
    | none =>
      exact absurd (hall k) (by simp [firstFail_none _ _ _ hff f hsf hfn])
    | some ii =>
      simp only [waitAux, hff]
      obtain ⟨h1, h2, h3⟩ := firstFail_some _ _ _ _ hff
      have hii : ii ≤ f := by
        by_contra hgt
        exact absurd (hall k) (by simp [h3 f hsf (by omega)])
      by_cases h20 : iter = 20
      · subst h20
        simp only [ne_eq, not_true_eq_false, if_false, ite_false]
        rw [ih (k + 1) ii 20 f (by omega) hii hfn hall]
        omega
      · simp only [ne_eq, h20, not_false_eq_true, if_true, ite_true]
        rw [ih (k + 1) ii (iter + 1) f (by omega) hii hfn hall]
        omega

theorem counter_coherent : Coherent counterA counterApply := by
  refine ⟨fun w op r => rfl, fun w op r => rfl, ?_, fun w r => rfl⟩
  intro orig mutated hm w r
  obtain ⟨w0, r0, h⟩ := hm
  simp only [counterA] at h
  simp [counterA, counterApply, ← h]

theorem publish_first_false (A : AbsorbSig T O) (s : WriteHandle T O) :
    (publish A s).first = false := by
  rcases Bool.eq_false_or_eq_true s.first with h | h
  · rw [publish_first A h]; rfl
  · rw [publish_not_first A h]; simpa [swapCopies] using h

theorem runTrace_split (A : AbsorbSig T O) :
    ∀ (tr1 tr2 : List (TraceOp O)) (s : WriteHandle T O),
      runTrace A s (tr1 ++ tr2) = runTrace A (runTrace A s tr1) tr2 := by
  intro tr1
  induction tr1 with
  | nil => intro tr2 s; rfl
  | cons e tr ih => intro tr2 s; simpa [runTrace] using ih tr2 (stepTrace A s e)

theorem runTrace_appends_not_first (A : AbsorbSig T O) :
    ∀ (batches : List (List O)) (s : WriteHandle T O), s.first = false →
      (runTrace A s (batches.map TraceOp.append)).r_handle = s.r_handle ∧
      (runTrace A s (batches.map TraceOp.append)).first = false := by
  intro batches
  induction batches with
  | nil => intro s h; exact ⟨rfl, h⟩
  | cons ops batches ih =>
    intro s h
    have hstep : stepTrace A s (TraceOp.append ops) = { s with oplog := s.oplog ++ ops } := by
      simp [stepTrace, extend_not_first A h]
    have := ih { s with oplog := s.oplog ++ ops } h
    simpa [runTrace, hstep] using this

/-- C1: for every sequence of operations appended to the WriteHandle, once
publish() returns, the reader-visible copy equals the semantic effect of
applying every appended operation in append order, and every read guard
entered strictly after publish() returns observes exactly that state.  The
guard view `enter` is modelled from the spec since `read.rs` is not among
the sources; `Coherent` is the documented `Absorb` contract. -/
theorem C1_publish_visibility (A : AbsorbSig T O) (ap : T → O → T)
    (hc : Coherent A ap) (t : T) (tr : List (TraceOp O)) :
    readerView (runTrace A (WriteHandle.new t) (tr ++ [TraceOp.publish]))
      = applyAll ap t (allOps tr)
    ∧ enter (runTrace A (WriteHandle.new t) (tr ++ [TraceOp.publish]))
      = some (applyAll ap t (allOps tr)) := by
  have hreach := runTrace_reachable A t tr
  have hst := reachable_struct hreach
  have hse := reachable_sem hc hreach
  have hstep : runTrace A (WriteHandle.new t) (tr ++ [TraceOp.publish])
      = publish A (runTrace A (WriteHandle.new t) tr) :=
    runTrace_append_one A tr _ _
  have hsem2 := semInv_publish hc hst hse
  have hr : (publish A (runTrace A (WriteHandle.new t) tr)).r_handle
      = applyAll ap t (allOps tr) := by
    have h1 := hsem2.1
    rwa [List.take_length] at h1
  refine ⟨?_, ?_⟩
  · rw [hstep]; exact hr
  · rw [hstep]; simp [enter, hr]

/-- Witness for C1 on a concrete counter run. -/
theorem C1_witness :
    readerView (runTrace counterA (WriteHandle.new 0)
      ([TraceOp.append [1, 2], TraceOp.publish, TraceOp.append [3]] ++ [TraceOp.publish]))
      = 6 := by
  have h := C1_publish_visibility counterA counterApply counter_coherent 0
    [TraceOp.append [1, 2], TraceOp.publish, TraceOp.append [3]]
  rw [h.1]
  decide

/-- C3: if publish() has never been called, append()/extend() apply each
operation immediately and directly to the write copy with full drop
semantics (via absorb_second), adding nothing to the oplog; after the first
publish, append()/extend() only enqueue the operations onto the oplog
without touching either copy. -/
theorem C3_extend_phases (A : AbsorbSig T O) (s : WriteHandle T O) (ops : List O) :
    (s.first = true →
      (extendCore A s ops).2 = ops.map AbsorbCall.absorbSecond
      ∧ (extendCore A s ops).1.w_handle
          = ops.foldl (fun w op => A.absorb_second w op s.r_handle) s.w_handle
      ∧ (extendCore A s ops).1.oplog = s.oplog
      ∧ (extendCore A s ops).1.r_handle = s.r_handle
      ∧ (extendCore A s ops).1.swap_index = s.swap_index)
    ∧ (s.first = false →
      (extendCore A s ops).2 = []
      ∧ (extendCore A s ops).1 = { s with oplog := s.oplog ++ ops }) := by
  constructor <;> intro h <;> simp [extendCore, h]

/-- Witness for C3 on concrete counter states: a first-phase extend absorbs
directly into the write copy and leaves the oplog empty; after a publish the
same extend only grows the oplog. -/
theorem C3_witness :
    (extendCore counterA (WriteHandle.new 0) [1, 2]).1.w_handle = 3
    ∧ (extendCore counterA (WriteHandle.new 0) [1, 2]).1.oplog = []
    ∧ (extendCore counterA (publish counterA (WriteHandle.new 0)) [1, 2]).1.oplog = [1, 2]
    ∧ (extendCore counterA (publish counterA (WriteHandle.new 0)) [1, 2]).2 = [] := by
  have h1 := C3_extend_phases counterA (WriteHandle.new 0) [1, 2]
  have h2 := C3_extend_phases counterA (publish counterA (WriteHandle.new 0)) [1, 2]
  have hb1 := h1.1 (by decide)
  have hb2 := h2.2 (by decide)
  refine ⟨by rw [hb1.2.1]; decide, by rw [hb1.2.2.1]; decide, ?_, hb2.1⟩
  rw [hb2.2]
  decide

/-- C5: operations appended through the write handle after the first
publish and not followed by publish() leave the reader-visible copy
unchanged: readers observe exactly the state committed at the last publish. -/
theorem C5_isolation (A : AbsorbSig T O) (t : T) (tr : List (TraceOp O))
    (batches : List (List O)) :
    readerView (runTrace A (WriteHandle.new t)
        ((tr ++ [TraceOp.publish]) ++ batches.map TraceOp.append))
      = readerView (runTrace A (WriteHandle.new t) (tr ++ [TraceOp.publish]))
    ∧ enter (runTrace A (WriteHandle.new t)
        ((tr ++ [TraceOp.publish]) ++ batches.map TraceOp.append))
      = enter (runTrace A (WriteHandle.new t) (tr ++ [TraceOp.publish])) := by
  have hsplit := runTrace_split A (tr ++ [TraceOp.publish]) (batches.map TraceOp.append)
    (WriteHandle.new t)
  have hpub : (runTrace A (WriteHandle.new t) (tr ++ [TraceOp.publish])).first = false := by
    rw [runTrace_append_one A tr _ TraceOp.publish]
    exact publish_first_false A _
  have h := runTrace_appends_not_first A batches _ hpub
  rw [hsplit]
  exact ⟨h.1, by simp [enter, h.1]⟩

/-- C10: before the first publish, has_pending_operations() is false and
flush() performs no publish — operations applied in the first phase never
reach the oplog and stay invisible to readers until an explicit publish;
flush() only ever publishes when the oplog holds unexposed operations. -/
theorem C10_first_phase (A : AbsorbSig T O) (t : T) (tr : List (TraceOp O))
    (h : publishCount tr = 0) :
    hasPendingOperations (runTrace A (WriteHandle.new t) tr) = false
    ∧ flushPair A (runTrace A (WriteHandle.new t) tr)
        = (runTrace A (WriteHandle.new t) tr, false)
    ∧ readerView (runTrace A (WriteHandle.new t) tr) = t
    ∧ (∀ s' : WriteHandle T O, (flushPair A s').2 = true →
        s'.swap_index < s'.oplog.length) := by
  have hreach := runTrace_reachable A t tr
  rw [h] at hreach
  have hst := reachable_struct hreach
  obtain ⟨hop, hn0, hrt⟩ := hst.2.2.2.2.2.1 rfl
  have hsw0 : (runTrace A (WriteHandle.new t) tr).swap_index = 0 :=
    hst.2.2.2.2.1 (by omega)
  have hpend : hasPendingOperations (runTrace A (WriteHandle.new t) tr) = false := by
    simp [hasPendingOperations, hop]
  refine ⟨hpend, by simp [flushPair, hpend], hrt, fun s' hs' => ?_⟩
  by_contra hlt
  have : hasPendingOperations s' = false := by
    simp [hasPendingOperations]
    omega
  simp [flushPair, this] at hs'

/-- Witness for C10: three ops appended with no publish leave nothing
pending, flush is a no-op, and the reader still sees the initial data. -/
theorem C10_witness :
    hasPendingOperations (runTrace counterA (WriteHandle.new 0)
        [TraceOp.append [1], TraceOp.append [2, 3]]) = false
    ∧ readerView (runTrace counterA (WriteHandle.new 0)
        [TraceOp.append [1], TraceOp.append [2, 3]]) = 0 := by
  have h := C10_first_phase counterA 0 [TraceOp.append [1], TraceOp.append [2, 3]] (by decide)
  exact ⟨h.1, h.2.2.1⟩

/-- C4 counterexample: after `publish; append 1; publish` on a counter the
oplog still holds the op `1`, which has been applied to the read copy
(`r_handle = 1`) but not to the write copy (`w_handle = 0`) — so the log
contains an operation not yet applied to both copies — yet
`has_pending_operations()` returns false.  The claimed equivalence
"true iff the log contains operations not yet applied to both copies"
is therefore false at this state. -/
theorem C4_counterexample :
    hasPendingOperations (runTrace counterA (WriteHandle.new 0)
        [TraceOp.publish, TraceOp.append [1], TraceOp.publish]) = false
    ∧ (runTrace counterA (WriteHandle.new 0)
        [TraceOp.publish, TraceOp.append [1], TraceOp.publish]).oplog = [1]
    ∧ (runTrace counterA (WriteHandle.new 0)
        [TraceOp.publish, TraceOp.append [1], TraceOp.publish]).w_handle = 0
    ∧ (runTrace counterA (WriteHandle.new 0)
        [TraceOp.publish, TraceOp.append [1], TraceOp.publish]).r_handle = 1
    ∧ ¬(hasPendingOperations (runTrace counterA (WriteHandle.new 0)
          [TraceOp.publish, TraceOp.append [1], TraceOp.publish]) = true
        ↔ (runTrace counterA (WriteHandle.new 0)
            [TraceOp.publish, TraceOp.append [1], TraceOp.publish]).oplog ≠ []) := by
  decide

/-- C4 (amended): has_pending_operations() returns true iff the operational
log contains operations that have not yet been applied to the read copy
(i.e. not yet exposed to readers): it is true exactly when some publish has
happened and fewer ops are visible to readers than have been appended;
operations already exposed but not yet applied to the write copy do not
count, and first-phase operations never enter the log. -/
theorem C4_amended_pending (A : AbsorbSig T O) (t : T) (tr : List (TraceOp O)) :
    hasPendingOperations (runTrace A (WriteHandle.new t) tr)
      = (decide (0 < publishCount tr) && decide (visibleOps tr < totalOps tr)) := by
  have hreach := runTrace_reachable A t tr
  have hst := reachable_struct hreach
  rcases Nat.eq_zero_or_pos (publishCount tr) with hk | hk
  · rw [hk] at hst
    obtain ⟨hop, _, _⟩ := hst.2.2.2.2.2.1 rfl
    simp [hasPendingOperations, hop, hk]
  · obtain ⟨hdrop, hmuts⟩ := hst.2.2.2.2.2.2 hk
    have hswlen : (runTrace A (WriteHandle.new t) tr).swap_index
        ≤ (runTrace A (WriteHandle.new t) tr).oplog.length := hst.swap_le_oplog
    have hlen : (runTrace A (WriteHandle.new t) tr).oplog.length
        - (runTrace A (WriteHandle.new t) tr).swap_index
        = (allOps tr).length - visibleOps tr := by
      have := congrArg List.length hdrop
      simpa using this
    have hn : visibleOps tr ≤ (allOps tr).length := hst.2.2.1
    rw [totalOps_eq]
    have h0 : decide (0 < publishCount tr) = true := by simpa using hk
    simp only [hasPendingOperations, h0, Bool.true_and]
    rw [decide_eq_decide]
    omega

theorem countP_isSync_map_second (l : List O) :
    (l.map AbsorbCall.absorbSecond).countP (fun e => AbsorbCall.isSyncWith e) = 0 := by
  induction l with
  | nil => rfl
  | cons op ops ih => simp [List.countP_cons, AbsorbCall.isSyncWith, ih]

theorem countP_isSync_map_first (l : List O) :
    (l.map AbsorbCall.absorbFirst).countP (fun e => AbsorbCall.isSyncWith e) = 0 := by
  induction l with
  | nil => rfl
  | cons op ops ih => simp [List.countP_cons, AbsorbCall.isSyncWith, ih]

/-- C2: on every publish after the first, before the pointer swap:
sync_with(write copy, read copy) is called exactly once iff exactly one
prior publish has happened; the ops at `[0, swap_index)` are drained from
the oplog and consumed by absorb_second; the ops at `[swap_index, len)` are
passed by mutable reference to absorb_first and remain in the log (possibly
mutated); finally swap_index is set to the log's length. -/
theorem C2_publish_replay (A : AbsorbSig T O) (t : T) {s : WriteHandle T O}
    {H : List O} {k n : Nat} (hr : Reachable A t s H k n) (hk : 1 ≤ k) :
    (publishCore A s).2
      = (if k = 1 then [AbsorbCall.syncWith] else [])
        ++ (s.oplog.take s.swap_index).map AbsorbCall.absorbSecond
        ++ (s.oplog.drop s.swap_index).map AbsorbCall.absorbFirst
    ∧ (publishCore A s).2.countP (fun e => AbsorbCall.isSyncWith e)
        = (if k = 1 then 1 else 0)
    ∧ (publish A s).swap_index = (publish A s).oplog.length
    ∧ Muts A (s.oplog.drop s.swap_index) (publish A s).oplog
    ∧ (publish A s).oplog.length = s.oplog.length - s.swap_index := by
  have hst := reachable_struct hr
  have hff : s.first = false := by
    rcases Bool.eq_false_or_eq_true s.first with h | h
    · exact absurd (hst.1.mp h) (by omega)
    · exact h
  have hsec2 : s.second = true ↔ k = 1 := by
    rw [hst.2.1]
    omega
  have hifsec : ∀ (X Y : List (AbsorbCall O)),
      (if s.second then X else Y) = (if k = 1 then X else Y) := by
    intro X Y
    by_cases hk1 : k = 1
    · rw [if_pos (hsec2.mpr hk1), if_pos hk1]
    · have : s.second = false := by
        rcases Bool.eq_false_or_eq_true s.second with h | h
        · exact absurd (hsec2.mp h) hk1
        · exact h
      rw [this, if_neg hk1]
      rfl
  have hevents := publishCore_snd_not_first A hff
  rw [hifsec] at hevents
  have hcount : (publishCore A s).2.countP (fun e => AbsorbCall.isSyncWith e)
      = (if k = 1 then 1 else 0) := by
    rw [hevents]
    simp only [List.countP_append, countP_isSync_map_second, countP_isSync_map_first]
    by_cases hk1 : k = 1 <;>
      simp [hk1, List.countP_cons, AbsorbCall.isSyncWith]
  have hplog := publish_not_first A hff
  refine ⟨hevents, hcount, ?_, ?_, ?_⟩
  · rw [hplog]
    simp [swapCopies]
  · rw [hplog]
    simp only [swapCopies]
    exact absorbFirstAll_muts A s.r_handle _ _
  · rw [hplog]
    simp only [swapCopies]
    rw [absorbFirstAll_snd_length]
    simp

/-- Witness for C2: after one publish the next publish syncs the copies and
replays the single pending op via absorb_first, leaving it in the log. -/
theorem C2_witness :
    (publishCore counterA (runTrace counterA (WriteHandle.new 0)
        [TraceOp.publish, TraceOp.append [5]])).2
      = [AbsorbCall.syncWith, AbsorbCall.absorbFirst 5]
    ∧ (publish counterA (runTrace counterA (WriteHandle.new 0)
        [TraceOp.publish, TraceOp.append [5]])).swap_index
      = (publish counterA (runTrace counterA (WriteHandle.new 0)
          [TraceOp.publish, TraceOp.append [5]])).oplog.length := by
  have h := C2_publish_replay counterA 0
    (runTrace_reachable counterA 0 [TraceOp.publish, TraceOp.append [5]]) (by decide)
  refine ⟨?_, h.2.2.1⟩
  rw [h.1]
  decide

theorem publish_swap_eq_len (A : AbsorbSig T O) {s : WriteHandle T O}
    (hff : s.first = false) :
    (publish A s).swap_index = (publish A s).oplog.length := by
  rw [publish_not_first A hff]
  simp [swapCopies]

theorem publish_publish_oplog_nil (A : AbsorbSig T O) {s : WriteHandle T O}
    (hff : s.first = false) :
    (publish A (publish A s)).oplog = [] := by
  have h1 : (publish A s).first = false := publish_first_false A s
  rw [publish_not_first A h1]
  simp only [swapCopies]
  rw [publish_swap_eq_len A hff, List.drop_length]
  rfl

/-- C6: when the WriteHandle is dropped, it publishes while the oplog is
non-empty (at most twice, after which the log is provably empty so the
`assert!` cannot fire), then swaps the reader-visible pointer to null, waits
for all readers to depart, fences, and finally hands the current write copy
to Absorb::drop_first and the former read copy to Absorb::drop_second. -/
theorem C6_drop_protocol (A : AbsorbSig T O) (t : T) {s : WriteHandle T O}
    {H : List O} {k n : Nat} (hr : Reachable A t s H k n) :
    ∃ pubs : List (DropStep T),
      pubs.length ≤ 2
      ∧ (∀ e ∈ pubs, e = DropStep.publishStep)
      ∧ (dropFlush A s).oplog = []
      ∧ dropWriteHandle A s
          = some (pubs ++ [DropStep.swapToNull, DropStep.waitForReaders, DropStep.fence,
              DropStep.callDropFirst (dropFlush A s).w_handle,
              DropStep.callDropSecond (dropFlush A s).r_handle]) := by
  by_cases hemp : s.oplog.isEmpty = true
  · refine ⟨[], by simp, by simp, ?_, ?_⟩
    · have : s.oplog = [] := by
        cases hop : s.oplog
        · rfl
        · rw [hop] at hemp; simp at hemp
      simp [dropFlush, hemp, this]
    · simp [dropWriteHandle, dropFlush, hemp]
  · have hemp' : s.oplog.isEmpty = false := by simpa using hemp
    have hst := reachable_struct hr
    have hff : s.first = false := by
      rcases Bool.eq_false_or_eq_true s.first with h | h
      · obtain ⟨hop, _, _⟩ := hst.2.2.2.2.2.1 (hst.1.mp h)
        rw [hop] at hemp'
        simp at hemp'
      · exact h
    by_cases h1emp : (publish A s).oplog.isEmpty = true
    · refine ⟨[DropStep.publishStep], by simp, by simp, ?_, ?_⟩
      · have hnil : (publish A s).oplog = [] := by
          cases hop : (publish A s).oplog
          · rfl
          · rw [hop] at h1emp; simp at h1emp
        simp [dropFlush, hemp', h1emp, hnil]
      · simp [dropWriteHandle, dropFlush, hemp', h1emp]
    · have h1emp' : (publish A s).oplog.isEmpty = false := by simpa using h1emp
      have h2nil : (publish A (publish A s)).oplog = [] :=
        publish_publish_oplog_nil A hff
      have h2emp : (publish A (publish A s)).oplog.isEmpty = true := by
        rw [h2nil]; rfl
      refine ⟨[DropStep.publishStep, DropStep.publishStep], by simp, by simp, ?_, ?_⟩
      · simp [dropFlush, hemp', h1emp', h2nil]
      · simp [dropWriteHandle, dropFlush, hemp', h1emp', h2emp]

/-- Witness for C6: dropping a handle with one unsynchronized pending op
publishes twice, then hands both (now converged) copies to the asymmetric
destructors. -/
theorem C6_witness :
    ∃ pubs : List (DropStep Int),
      pubs.length ≤ 2
      ∧ (∀ e ∈ pubs, e = DropStep.publishStep)
      ∧ (dropFlush counterA (runTrace counterA (WriteHandle.new 0)
            [TraceOp.publish, TraceOp.append [1]])).oplog = []
      ∧ dropWriteHandle counterA (runTrace counterA (WriteHandle.new 0)
            [TraceOp.publish, TraceOp.append [1]])
          = some (pubs ++ [DropStep.swapToNull, DropStep.waitForReaders, DropStep.fence,
              DropStep.callDropFirst (dropFlush counterA (runTrace counterA
                (WriteHandle.new 0) [TraceOp.publish, TraceOp.append [1]])).w_handle,
              DropStep.callDropSecond (dropFlush counterA (runTrace counterA
                (WriteHandle.new 0) [TraceOp.publish, TraceOp.append [1]])).r_handle]) :=
  C6_drop_protocol counterA 0
    (runTrace_reachable counterA 0 [TraceOp.publish, TraceOp.append [1]])

/-- C7: wait() returns only when every reader slot is clear — for each slot
either the recorded `last_epochs` value is even or the slot's epoch has
changed since it was recorded (given that epochs only grow); while some slot
stays odd and unchanged the loop spins forever, and it yields the thread on
every retry past the hot-spin bound of 20 iterations (so a blocked spin of
`fuel` scans performs exactly `fuel - 20` yields).  The writer therefore
never proceeds to replay the oplog while a reader pinned before the last
swap may still be in the stale copy. -/
theorem C7_wait_epochs (last : List Nat) (cur : Nat → List Nat) (fuel : Nat) :
    (EpochsMonotone last cur →
      (waitAux last cur fuel 0 0 0).1 = some () →
      ∃ kf, ∀ i, i < last.length →
        last.getD i 0 % 2 = 0 ∨ (cur kf).getD i 0 ≠ last.getD i 0)
    ∧ (∀ f, f < last.length → (∀ k, failsAt last (cur k) f = true) →
        (waitAux last cur fuel 0 0 0).1 = none
        ∧ (waitAux last cur fuel 0 0 0).2 = fuel - 20) := by
  constructor
  · intro hm hsome
    obtain ⟨kf, _, hall⟩ :=
      waitAux_some_pass hm fuel 0 0 0 (fun i hi => by omega) hsome
    exact ⟨kf, fun i hi => hall i hi⟩
  · intro f hf hall
    refine ⟨waitAux_blocked_none fuel 0 0 0 f (by omega) hf hall, ?_⟩
    have h := waitAux_blocked_yields fuel 0 0 0 f (by omega) (by omega) hf hall
    simpa using h

/-- Witness for C7, mirroring the `wait_test` of the source: with
`last_epochs = [2, 2, 1]`, if the held epoch advances to 2 the wait
finishes with every slot clear, and while it stays at 1 the wait spins
without returning, yielding once per scan beyond the hot-spin bound. -/
theorem C7_witness :
    (∃ _kf : Nat, ∀ i, i < ([2, 2, 1] : List Nat).length →
      ([2, 2, 1] : List Nat).getD i 0 % 2 = 0
        ∨ ([2, 2, 2] : List Nat).getD i 0 ≠ ([2, 2, 1] : List Nat).getD i 0)
    ∧ (waitAux [2, 2, 1] (fun _ => [2, 2, 1]) 25 0 0 0).1 = none
    ∧ (waitAux [2, 2, 1] (fun _ => [2, 2, 1]) 25 0 0 0).2 = 5 := by
  refine ⟨?_, ?_, ?_⟩
  · refine (C7_wait_epochs [2, 2, 1] (fun _ => [2, 2, 2]) 1).1 ?_ (by decide)
    intro k i
    constructor
    · rcases i with _ | _ | _ | i <;> simp [List.getD]
    · exact le_refl _
  · exact ((C7_wait_epochs [2, 2, 1] (fun _ => [2, 2, 1]) 25).2 2 (by decide)
      (fun k => by decide)).1
  · have h := ((C7_wait_epochs [2, 2, 1] (fun _ => [2, 2, 1]) 25).2 2 (by decide)
      (fun k => by decide)).2
    simpa using h

end LeftRight

namespace Aliasing

/-- The `DropBehavior` trait: a drop-behavior tag answers `do_drop()`. -/
structure DropBehavior where
  do_drop : Bool

/-- The `NoDrop` implementor: `do_drop()` returns false. -/
def NoDrop : DropBehavior := ⟨false⟩

/-- The `DoDrop` implementor: `do_drop()` returns true. -/
def DoDrop : DropBehavior := ⟨true⟩

/-- The `Aliased<T, U>` wrapper (`repr(transparent)` around
`MaybeUninit<T>` plus zero-sized tags). -/
structure Aliased (T : Type) (U : DropBehavior) where
  aliased : T

/-- The `AsRef`/`Deref`/`Borrow` read through the wrapper. -/
def Aliased.as_ref {U : DropBehavior} (a : Aliased T U) : T := a.aliased

/-- The `alias()` method: `ptr::read` of the storage, a second `NoDrop`
alias sharing the same `T`. -/
def Aliased.alias (a : Aliased T NoDrop) : Aliased T NoDrop := ⟨a.aliased⟩

/-- The `from` constructor wrapping an owned `T` as a `NoDrop` alias. -/
def Aliased.from_val (t : T) : Aliased T NoDrop := ⟨t⟩

/-- The `dropping()` method: byte-move of the storage into a `DoDrop`
alias (permitted only for the last live alias). -/
def Aliased.dropping (a : Aliased T NoDrop) : Aliased T DoDrop := ⟨a.aliased⟩

/-- The `Drop` impl for `Aliased<T, U>`: `drop_in_place` on the inner `T`
is executed once if `U::do_drop()` and never otherwise; this counts the
inner-destructor runs performed by dropping one alias. -/
def dropDestructorRuns (U : DropBehavior) : Nat :=
  if U.do_drop then 1 else 0

/-- The `PartialEq` operations of the inner type. -/
structure PartialEqSig (T : Type) where
  eq : T → T → Bool
  ne : T → T → Bool

/-- The `Ord` operation of the inner type. -/
structure OrdSig (T : Type) where
  cmp : T → T → Ordering

/-- The `PartialOrd` operations of the inner type. -/
structure PartialOrdSig (T : Type) where
  partial_cmp : T → T → Option Ordering
  lt : T → T → Bool
  le : T → T → Bool
  gt : T → T → Bool
  ge : T → T → Bool

/-- The `Hash` operation of the inner type: `hash` folds the value into a
hasher state. -/
structure HashSig (T Hst : Type) where
  hash : T → Hst → Hst

/-- The `PartialEq for Aliased` impl: `self.as_ref().eq(other.as_ref())`. -/
def aliasedEq {U : DropBehavior} (E : PartialEqSig T) (a b : Aliased T U) : Bool :=
  E.eq a.as_ref b.as_ref

/-- The `ne` method of `PartialEq for Aliased`. -/
def aliasedNe {U : DropBehavior} (E : PartialEqSig T) (a b : Aliased T U) : Bool :=
  E.ne a.as_ref b.as_ref

/-- The `Ord for Aliased` impl: `self.as_ref().cmp(other.as_ref())`. -/
def aliasedCmp {U : DropBehavior} (C : OrdSig T) (a b : Aliased T U) : Ordering :=
  C.cmp a.as_ref b.as_ref

/-- The `partial_cmp` method of `PartialOrd for Aliased`. -/
def aliasedPartialCmp {U : DropBehavior} (P : PartialOrdSig T) (a b : Aliased T U) :
    Option Ordering :=
  P.partial_cmp a.as_ref b.as_ref

/-- The `lt` method of `PartialOrd for Aliased`. -/
def aliasedLt {U : DropBehavior} (P : PartialOrdSig T) (a b : Aliased T U) : Bool :=
  P.lt a.as_ref b.as_ref

/-- The `le` method of `PartialOrd for Aliased`. -/
def aliasedLe {U : DropBehavior} (P : PartialOrdSig T) (a b : Aliased T U) : Bool :=
  P.le a.as_ref b.as_ref

/-- The `gt` method of `PartialOrd for Aliased`. -/
def aliasedGt {U : DropBehavior} (P : PartialOrdSig T) (a b : Aliased T U) : Bool :=
  P.gt a.as_ref b.as_ref

/-- The `ge` method of `PartialOrd for Aliased`. -/
def aliasedGe {U : DropBehavior} (P : PartialOrdSig T) (a b : Aliased T U) : Bool :=
  P.ge a.as_ref b.as_ref

/-- The `Hash for Aliased` impl: `self.as_ref().hash(state)`. -/
def aliasedHash {U : DropBehavior} {Hst : Type} (Hs : HashSig T Hst)
    (a : Aliased T U) (st : Hst) : Hst :=
  Hs.hash a.as_ref st

/-- The `Borrow<T> for Aliased<T, U>` impl. -/
def aliasedBorrow {U : DropBehavior} (a : Aliased T U) : T := a.as_ref

/-- Concrete `PartialEq` on naturals, for evaluating the theorems. -/
def natEqSig : PartialEqSig Nat where
  eq := fun x y => decide (x = y)
  ne := fun x y => !decide (x = y)

/-- Concrete `Ord` on naturals. -/
def natOrdSig : OrdSig Nat where
  cmp := fun x y => Ord.compare x y

/-- Concrete `Hash` on naturals into a natural hasher state. -/
def natHashSig : HashSig Nat Nat where
  hash := fun x st => st * 31 + x

/-- C8: dropping an `Aliased<T, NoDrop>` never runs the inner destructor
and dropping an `Aliased<T, DoDrop>` runs it exactly once; in general the
drop of `Aliased<T, U>` runs the inner destructor iff `U::do_drop()`. -/
theorem C8_aliased_drop :
    dropDestructorRuns NoDrop = 0
    ∧ dropDestructorRuns DoDrop = 1
    ∧ NoDrop.do_drop = false
    ∧ DoDrop.do_drop = true
    ∧ ∀ U : DropBehavior,
        (dropDestructorRuns U = 1 ↔ U.do_drop = true)
        ∧ (dropDestructorRuns U = 0 ↔ U.do_drop = false) := by
  refine ⟨rfl, rfl, rfl, rfl, fun U => ?_⟩
  cases hU : U.do_drop <;> simp [dropDestructorRuns, hU]

/-- C9: equality, ordering, and hashing are homomorphic through the
`Aliased` wrapper: two aliased values are `==` iff the inner values are
equal, comparisons equal the comparisons of the inner values, the hash of
an alias equals the hash of the inner value, and therefore a lookup (count
of matching elements) over wrapped values coincides with the lookup over
the unwrapped values. -/
theorem C9_wrapper_homomorphism (T : Type) (U : DropBehavior)
    (E : PartialEqSig T) (C : OrdSig T) (P : PartialOrdSig T)
    (Hst : Type) (Hs : HashSig T Hst)
    (hE : ∀ x y : T, E.eq x y = true ↔ x = y) :
    ∀ a b : Aliased T U,
      (aliasedEq E a b = true ↔ a = b)
      ∧ aliasedEq E a b = E.eq a.aliased b.aliased
      ∧ aliasedNe E a b = E.ne a.aliased b.aliased
      ∧ aliasedCmp C a b = C.cmp a.aliased b.aliased
      ∧ aliasedPartialCmp P a b = P.partial_cmp a.aliased b.aliased
      ∧ aliasedLt P a b = P.lt a.aliased b.aliased
      ∧ aliasedLe P a b = P.le a.aliased b.aliased
      ∧ aliasedGt P a b = P.gt a.aliased b.aliased
      ∧ aliasedGe P a b = P.ge a.aliased b.aliased
      ∧ (∀ st, aliasedHash Hs a st = Hs.hash a.aliased st)
      ∧ (∀ (xs : List T) (v : T),
          (xs.map (fun x => (⟨x⟩ : Aliased T U))).countP
              (fun av => aliasedEq E av ⟨v⟩)
            = xs.countP (fun x => E.eq x v)) := by
  intro a b
  refine ⟨?_, rfl, rfl, rfl, rfl, rfl, rfl, rfl, rfl, fun st => rfl, ?_⟩
  · rw [show aliasedEq E a b = E.eq a.aliased b.aliased from rfl, hE]
    cases a
    cases b
    simp
  · intro xs v
    induction xs with
    | nil => rfl
    | cons x xs ih =>
      simp only [List.map_cons, List.countP_cons, ih]
      rfl

/-- Witness for C9 at concrete naturals: wrapped 2 and 3 compare, equal,
and hash exactly as the unwrapped values do. -/
theorem C9_witness :
    (aliasedEq natEqSig (⟨2⟩ : Aliased Nat NoDrop) ⟨2⟩ = true
      ↔ (⟨2⟩ : Aliased Nat NoDrop) = ⟨2⟩)
    ∧ aliasedCmp natOrdSig (⟨2⟩ : Aliased Nat NoDrop) ⟨3⟩
        = natOrdSig.cmp 2 3
    ∧ (∀ st, aliasedHash natHashSig (⟨2⟩ : Aliased Nat NoDrop) st
        = natHashSig.hash 2 st)
    ∧ ([4, 2, 2].map (fun x => (⟨x⟩ : Aliased Nat NoDrop))).countP
          (fun av => aliasedEq natEqSig av ⟨2⟩)
        = ([4, 2, 2] : List Nat).countP (fun x => natEqSig.eq x 2) := by
  have h := C9_wrapper_homomorphism Nat NoDrop natEqSig natOrdSig
    ⟨fun x y => some (Ord.compare x y), fun x y => decide (x < y),
     fun x y => decide (x ≤ y), fun x y => decide (x > y), fun x y => decide (x ≥ y)⟩
    Nat natHashSig (fun x y => by simp [natEqSig])
    (⟨2⟩ : Aliased Nat NoDrop) ⟨2⟩
  have h23 := C9_wrapper_homomorphism Nat NoDrop natEqSig natOrdSig
    ⟨fun x y => some (Ord.compare x y), fun x y => decide (x < y),
     fun x y => decide (x ≤ y), fun x y => decide (x > y), fun x y => decide (x ≥ y)⟩
    Nat natHashSig (fun x y => by simp [natEqSig])
    (⟨2⟩ : Aliased Nat NoDrop) ⟨3⟩
  exact ⟨h.1, h23.2.2.2.1, h23.2.2.2.2.2.2.2.2.2.1,
    h23.2.2.2.2.2.2.2.2.2.2 [4, 2, 2] 2⟩

end Aliasing
